import Mathlib

/-!
Verification of the SearchParams query-string store (a URLSearchParams fill).

Strings of the JavaScript source are modelled as lists of unicode scalar
values (Lean Char).  The two JavaScript builtins used by the source,
decodeURIComponent and encodeURIComponent, are modelled after the ECMA-262
Decode and Encode abstract operations: encoding percent-escapes the UTF-8
bytes of every character outside the unreserved set, and decoding parses
percent-escapes back into well-formed UTF-8 byte sequences, failing (none)
on any malformed escape, exactly where the builtin throws URIError.
-/

namespace SearchParams

/-- JavaScript strings, modelled as lists of unicode scalar values. -/
abbrev Str := List Char

/-- Value of one hexadecimal digit character, case insensitive, as accepted
by the ECMA-262 Decode operation. -/
def hexVal (c : Char) : Option Nat :=
  if ('0' ≤ c ∧ c ≤ '9') then some (c.toNat - 48)
  else if ('A' ≤ c ∧ c ≤ 'F') then some (c.toNat - 55)
  else if ('a' ≤ c ∧ c ≤ 'f') then some (c.toNat - 87)
  else none

/-- The uppercase hexadecimal digit for a value below 16, as produced by the
ECMA-262 Encode operation. -/
def hexDigit (m : Nat) : Char :=
  if m < 10 then Char.ofNat (48 + m) else Char.ofNat (55 + m)

/-- Parse two hexadecimal digit characters into a byte. -/
def hexPair (h1 h2 : Char) : Option Nat :=
  match hexVal h1, hexVal h2 with
  | some a, some b => some (16 * a + b)
  | _, _ => none

/-- Lower bound for the second byte of a three-byte UTF-8 sequence
(0xA0 for the lead byte 0xE0, else 0x80), per the well-formed UTF-8 table. -/
def cont3lo (b : Nat) : Nat := if b = 0xE0 then 0xA0 else 0x80

/-- Upper bound (exclusive) for the second byte of a three-byte UTF-8
sequence (0xA0 for the lead byte 0xED, else 0xC0). -/
def cont3hi (b : Nat) : Nat := if b = 0xED then 0xA0 else 0xC0

/-- Lower bound for the second byte of a four-byte UTF-8 sequence
(0x90 for the lead byte 0xF0, else 0x80). -/
def cont4lo (b : Nat) : Nat := if b = 0xF0 then 0x90 else 0x80

/-- Upper bound (exclusive) for the second byte of a four-byte UTF-8
sequence (0x90 for the lead byte 0xF4, else 0xC0). -/
def cont4hi (b : Nat) : Nat := if b = 0xF4 then 0x90 else 0xC0

/-- One percent escape of the ECMA-262 Decode operation: a percent sign
followed by two hexadecimal digits, yielding the byte and the rest of the
input; none when the input starts with anything else. -/
def readByte : Str → Option (Nat × Str)
  | '%' :: h1 :: h2 :: r =>
    match hexPair h1 h2 with
    | some b => some (b, r)
    | none => none
  | _ => none

/-- Finish decoding one UTF-8 byte sequence of the ECMA-262 Decode
operation, given its already read first byte: a byte below 0x80 is the
scalar value itself, otherwise the continuation bytes are read as further
percent escapes, each constrained to the well-formed UTF-8 ranges (which
exclude overlong forms, surrogate values and values above 0x10FFFF).
Returns the decoded scalar value and the remaining input, or none where
the builtin throws URIError. -/
def decodeSeq (b : Nat) (r1 : Str) : Option (Char × Str) :=
  if b < 0x80 then some (Char.ofNat b, r1)
  else if b < 0xC2 then none
  else if b < 0xE0 then
    match readByte r1 with
    | some (b2, r2) =>
      if 0x80 ≤ b2 ∧ b2 < 0xC0 then
        some (Char.ofNat ((b - 0xC0) * 0x40 + (b2 - 0x80)), r2)
      else none
    | none => none
  else if b < 0xF0 then
    match readByte r1 with
    | some (b2, r2) =>
      if cont3lo b ≤ b2 ∧ b2 < cont3hi b then
        match readByte r2 with
        | some (b3, r3) =>
          if 0x80 ≤ b3 ∧ b3 < 0xC0 then
            some (Char.ofNat ((b - 0xE0) * 0x1000 + (b2 - 0x80) * 0x40 + (b3 - 0x80)), r3)
          else none
        | none => none
      else none
    | none => none
  else if b < 0xF5 then
    match readByte r1 with
    | some (b2, r2) =>
      if cont4lo b ≤ b2 ∧ b2 < cont4hi b then
        match readByte r2 with
        | some (b3, r3) =>
          if 0x80 ≤ b3 ∧ b3 < 0xC0 then
            match readByte r3 with
            | some (b4, r4) =>
              if 0x80 ≤ b4 ∧ b4 < 0xC0 then
                some (Char.ofNat
                  ((b - 0xF0) * 0x40000 + (b2 - 0x80) * 0x1000 +
                    (b3 - 0x80) * 0x40 + (b4 - 0x80)), r4)
              else none
            | none => none
          else none
        | none => none
      else none
    | none => none
  else none

/-- The scan loop of the ECMA-262 Decode operation: characters other than
the percent sign pass through, a percent sign starts a percent-escaped
UTF-8 sequence.  The fuel argument only serves structural recursion; with
fuel at least the input length (as the wrapper below always passes) the
zero-fuel alternative is unreachable, since every step consumes at least
one character. -/
def decodeLoop : Nat → Str → Option Str
  | _, [] => some []
  | fuel + 1, c :: rest =>
    if c = '%' then
      match readByte (c :: rest) with
      | some (b, r1) =>
        match decodeSeq b r1 with
        | some (ch, r2) => (decodeLoop fuel r2).map (fun t => ch :: t)
        | none => none
      | none => none
    else (decodeLoop fuel rest).map (fun t => c :: t)
  | 0, _ :: _ => none

/-- Model of the JavaScript builtin decodeURIComponent (the ECMA-262 Decode
operation with an empty reserved set).  Returns none exactly where the
builtin throws URIError: a percent sign not followed by two hexadecimal
digits, or escaped bytes that are not well-formed UTF-8. -/
def decodeURIComponent (s : Str) : Option Str := decodeLoop s.length s

/-- The regex replace of the source decode helper: every literal plus sign
becomes a space before percent-decoding. -/
def replacePlus (s : Str) : Str := s.map (fun c => if c = '+' then ' ' else c)

/-- The decode helper of the source: treat plus signs as spaces, then
decodeURIComponent. -/
def decode (s : Str) : Option Str := decodeURIComponent (replacePlus s)

/-- The unreserved characters of the ECMA-262 Encode operation used by
encodeURIComponent: ASCII letters, digits, and - _ . ! ~ * apostrophe ( ). -/
def isUnreserved (c : Char) : Bool :=
  decide ('A' ≤ c ∧ c ≤ 'Z') || decide ('a' ≤ c ∧ c ≤ 'z') ||
  decide ('0' ≤ c ∧ c ≤ '9') ||
  c == '-' || c == '_' || c == '.' || c == '!' || c == '~' || c == '*' ||
  c == Char.ofNat 39 || c == '(' || c == ')'

/-- UTF-8 bytes of a unicode scalar value. -/
def utf8Bytes (n : Nat) : List Nat :=
  if n < 0x80 then [n]
  else if n < 0x800 then [0xC0 + n / 0x40, 0x80 + n % 0x40]
  else if n < 0x10000 then
    [0xE0 + n / 0x1000, 0x80 + n / 0x40 % 0x40, 0x80 + n % 0x40]
  else
    [0xF0 + n / 0x40000, 0x80 + n / 0x1000 % 0x40, 0x80 + n / 0x40 % 0x40, 0x80 + n % 0x40]

/-- Percent-escape one byte with uppercase hexadecimal digits. -/
def percentByte (b : Nat) : Str := ['%', hexDigit (b / 16), hexDigit (b % 16)]

/-- Percent-escape a byte list. -/
def percentBytes : List Nat → Str
  | [] => []
  | b :: bs => percentByte b ++ percentBytes bs

/-- Model of the JavaScript builtin encodeURIComponent: unreserved
characters pass through, every other character is replaced by the
percent-escapes of its UTF-8 bytes. -/
def encodeChar (c : Char) : Str :=
  if isUnreserved c then [c] else percentBytes (utf8Bytes c.toNat)

/-- The encode helper of the source (spaces become the escape %20, never a
plus sign), applied characterwise. -/
def encode : Str → Str
  | [] => []
  | c :: rest => encodeChar c ++ encode rest

/-- The stored value for one key of the params map of the source:
a single string or an array of strings. -/
inductive Val : Type
  | one : Str → Val
  | many : List Str → Val
deriving DecidableEq

/-- The params map of the source: a JavaScript Map from key to value,
modelled as an association list in insertion order with its Map access
functions below. -/
abbrev Params := List (Str × Val)

/-- The value sequence a stored value represents. -/
def vals : Val → List Str
  | .one s => [s]
  | .many l => l

/-- JavaScript Map get: the value at the first matching key, if any. -/
def mapGet : Params → Str → Option Val
  | [], _ => none
  | (k, v) :: rest, key => if k = key then some v else mapGet rest key

/-- JavaScript Map set: replace the value at an existing key in place
(keeping its position), else append the new key at the end. -/
def mapSet : Params → Str → Val → Params
  | [], key, v => [(key, v)]
  | (k, w) :: rest, key, v =>
    if k = key then (key, v) :: rest else (k, w) :: mapSet rest key v

/-- The array push / promotion of the addValue helper: a scalar entry
becomes a two-element array, an array gets the value appended. -/
def push (pv : Val) (v : Str) : Val :=
  match pv with
  | .one s => .many [s, v]
  | .many l => .many (l ++ [v])

/-- The private addValue helper of the source: append the value to the
existing entry for the key (promoting a scalar to an array), or create a
fresh scalar entry when the key is absent. -/
def addValue (m : Params) (key value : Str) : Params :=
  match mapGet m key with
  | some pv => mapSet m key (push pv value)
  | none => mapSet m key (.one value)

/-- The get method of the source.  Note the falsy test of the source
(if (!value) return null) which also fires on an empty string value. -/
def get (m : Params) (key : Str) : Option Str :=
  match mapGet m key with
  | none => none
  | some (.one s) => if s = [] then none else some s
  | some (.many l) => some (l.headD [])

/-- The getAll method of the source.  The same falsy test fires on a
scalar empty string value; an array is returned as a fresh copy (slice). -/
def getAll (m : Params) (key : Str) : List Str :=
  match mapGet m key with
  | none => []
  | some (.one s) => if s = [] then [] else [s]
  | some (.many l) => l

/-- The has method of the source. -/
def has (m : Params) (key : Str) : Bool := (mapGet m key).isSome

/-- The set method of the source (the argument is already a string here;
the source stringifies other argument types first). -/
def set (m : Params) (key value : Str) : Params := mapSet m key (.one value)

/-- The append method of the source. -/
def append (m : Params) (key value : Str) : Params := addValue m key value

/-- The entries generator of the source: one pair per stored value, keys in
map order, the values of one key in their stored order. -/
def entries : Params → List (Str × Str)
  | [] => []
  | (k, pv) :: rest => (vals pv).map (fun v => (k, v)) ++ entries rest

/-- Join segments with ampersands (Array.prototype.join with separator &). -/
def joinAmp : List Str → Str
  | [] => []
  | [s] => s
  | s :: ss => s ++ '&' :: joinAmp ss

/-- One part pushed by the toString loop of the source: the encoded key,
an equals sign, the encoded value. -/
def serializeP (p : Str × Str) : Str := encode p.1 ++ '=' :: encode p.2

/-- The toString method of the source: encode key and value of every entry,
put an equals sign between them, join the parts with ampersands. -/
def toString (m : Params) : Str :=
  joinAmp ((entries m).map serializeP)

/-- The UTF-16 code units of a character, as a JavaScript string stores it:
one unit below 0x10000, else a surrogate pair. -/
def utf16Units (c : Char) : List Nat :=
  if c.toNat < 0x10000 then [c.toNat]
  else [0xD800 + (c.toNat - 0x10000) / 0x400, 0xDC00 + (c.toNat - 0x10000) % 0x400]

/-- The UTF-16 code units of a string. -/
def utf16Of : Str → List Nat
  | [] => []
  | c :: rest => utf16Units c ++ utf16Of rest

/-- Lexicographic order on code unit lists. -/
def unitsLe : List Nat → List Nat → Bool
  | [], _ => true
  | _ :: _, [] => false
  | a :: as, b :: bs => if a < b then true else if b < a then false else unitsLe as bs

/-- The default JavaScript string order used by Array.prototype.sort:
lexicographic comparison of UTF-16 code units. -/
def jsLe (a b : Str) : Prop := unitsLe (utf16Of a) (utf16Of b) = true

instance : DecidableRel jsLe := fun a b => by unfold jsLe; infer_instance

theorem unitsLe_total : ∀ a b : List Nat, unitsLe a b = true ∨ unitsLe b a = true
  | [], _ => Or.inl rfl
  | _ :: _, [] => Or.inr rfl
  | a :: as, b :: bs => by
    rcases Nat.lt_trichotomy a b with h | h | h
    · left; simp [unitsLe, h]
    · subst h
      rcases unitsLe_total as bs with h | h
      · left; simp [unitsLe, h]
      · right; simp [unitsLe, h]
    · right; simp [unitsLe, h]

theorem unitsLe_trans :
    ∀ a b c : List Nat, unitsLe a b = true → unitsLe b c = true → unitsLe a c = true := by
  intro a
  induction a with
  | nil => intro b c h1 h2; rfl
  | cons x xs ih =>
    intro b c h1 h2
    cases b with
    | nil => simp [unitsLe] at h1
    | cons y ys =>
      cases c with
      | nil => simp [unitsLe] at h2
      | cons z zs =>
        simp only [unitsLe] at h1 h2 ⊢
        split at h1
        · next hxy =>
          split at h2
          · next hyz => rw [if_pos (by omega)]
          · split at h2
            · simp at h2
            · next hyz hzy => rw [if_pos (by omega)]
        · split at h1
          · simp at h1
          · next hxy hyx =>
            split at h2
            · next hyz => rw [if_pos (by omega)]
            · split at h2
              · simp at h2
              · next hyz hzy =>
                rw [if_neg (by omega), if_neg (by omega)]
                exact ih ys zs h1 h2

instance : IsTotal Str jsLe := ⟨fun a b => unitsLe_total (utf16Of a) (utf16Of b)⟩

instance : IsTrans Str jsLe := ⟨fun a b c => unitsLe_trans (utf16Of a) (utf16Of b) (utf16Of c)⟩

/-- The sort method of the source: take the key list, sort it with the
default JavaScript comparison, and rebuild a fresh map by reinserting every
key with its stored value in sorted key order. -/
def sort (m : Params) : Params :=
  (List.insertionSort jsLe (m.map Prod.fst)).filterMap
    (fun k => (mapGet m k).map (fun v => (k, v)))

/-- The chunk of a segment before the first equals sign (the first part of
the JavaScript split of the segment on the equals sign with limit 2). -/
def takeNoEq : Str → Str
  | [] => []
  | c :: rest => if c = '=' then [] else c :: takeNoEq rest

/-- The chunk of a segment after the first equals sign, cut at the next
equals sign (the second part of the JavaScript split with limit 2, which
discards everything from the second equals sign on); none when the segment
has no equals sign. -/
def afterFirstEq : Str → Option Str
  | [] => none
  | c :: rest => if c = '=' then some (takeNoEq rest) else afterFirstEq rest

/-- JavaScript String.prototype.split on the ampersand, preserving empty
segments. -/
def splitAmp : Str → List Str
  | [] => [[]]
  | c :: rest =>
    if c = '&' then [] :: splitAmp rest
    else
      match splitAmp rest with
      | [] => [[c]]
      | s :: ss => (c :: s) :: ss

/-- The loop body of the private parse method: a segment without an equals
sign records the raw key with the empty value and no decoding at all; a
segment with an equals sign has key and value decoded, a decode failure
aborting the whole construction. -/
def parseSegs : Params → List Str → Option Params
  | m, [] => some m
  | m, seg :: rest =>
    match afterFirstEq seg with
    | none => parseSegs (addValue m (takeNoEq seg) []) rest
    | some rawValue =>
      match decode (takeNoEq seg), decode rawValue with
      | some cleanKey, some cleanValue => parseSegs (addValue m cleanKey cleanValue) rest
      | _, _ => none

/-- The leading question mark strip of the parse method (startsWith and
substring of the source). -/
def stripQ : Str → Str
  | '?' :: r => r
  | q => q

/-- The private parse method driving the constructor: strip one leading
question mark, stop on the empty string, else split on ampersands and
record every segment.  The option result models the constructor either
fully succeeding or throwing with no store observable. -/
def parse (q : Str) : Option Params :=
  if stripQ q = [] then some [] else parseSegs [] (splitAmp (stripQ q))

/-- Whether one segment decodes without error: segments without an equals
sign never decode anything, segments with one need both chunks to decode. -/
def segOk (seg : Str) : Bool :=
  match afterFirstEq seg with
  | none => true
  | some rawValue => (decode (takeNoEq seg)).isSome && (decode rawValue).isSome

/-- Whether every decoded position of a query is free of malformed percent
escapes, so that construction succeeds. -/
def queryOk (q : Str) : Bool :=
  stripQ q = [] || (splitAmp (stripQ q)).all segOk

/-- The parse loop as a fold of addValue over already-decoded pairs. -/
def foldAdd (m : Params) (pairs : List (Str × Str)) : Params :=
  pairs.foldl (fun acc p => addValue acc p.1 p.2) m

/-- The value sequence stored for one key (empty when the key is absent):
the sequence getAll is specified to return. -/
def valsAt (m : Params) (key : Str) : List Str :=
  match mapGet m key with
  | none => []
  | some pv => vals pv

/-- Whether a stored value is a shape the class can actually build: arrays
only ever arise from a second value, so they hold at least two values. -/
def valOk : Val → Bool
  | .one _ => true
  | .many l => decide (2 ≤ l.length)

/-- The representation invariant of a reachable store: distinct keys (it is
a Map) and every array value of length at least two. -/
def WF (m : Params) : Prop :=
  (m.map Prod.fst).Nodup ∧ ∀ p ∈ m, valOk p.2 = true

instance (m : Params) : Decidable (WF m) := by unfold WF; infer_instance

/-- Modelled from the spec: ascending lexicographic (code-point) order of
keys, the order the sort section of the spec names.  Compares the unicode
scalar values of the two strings lexicographically. -/
def codePointLe : Str → Str → Bool
  | [], _ => true
  | _ :: _, [] => false
  | a :: as, b :: bs =>
    if a.toNat < b.toNat then true
    else if b.toNat < a.toNat then false
    else codePointLe as bs

/-! ### Decoder lemmas -/

theorem readByte_length (s : Str) (b : Nat) (r : Str) (h : readByte s = some (b, r)) :
    s.length = r.length + 3 := by
  unfold readByte at h
  split at h
  · split at h
    · cases h; simp
    · exact Option.noConfusion h
  · exact Option.noConfusion h

set_option maxRecDepth 4000 in
theorem decodeSeq_length (b : Nat) (r1 : Str) (ch : Char) (r2 : Str)
    (h : decodeSeq b r1 = some (ch, r2)) : r2.length ≤ r1.length := by
  unfold decodeSeq at h
  split at h
  · cases h; exact Nat.le_refl _
  · split at h
    · exact Option.noConfusion h
    · split at h
      · split at h
        · next heq =>
          split at h
          · cases h
            have := readByte_length _ _ _ heq
            omega
          · exact Option.noConfusion h
        · exact Option.noConfusion h
      · split at h
        · split at h
          · next heq =>
            split at h
            · split at h
              · next heq2 =>
                split at h
                · cases h
                  have := readByte_length _ _ _ heq
                  have := readByte_length _ _ _ heq2
                  omega
                · exact Option.noConfusion h
              · exact Option.noConfusion h
            · exact Option.noConfusion h
          · exact Option.noConfusion h
        · split at h
          · split at h
            · next heq =>
              split at h
              · split at h
                · next heq2 =>
                  split at h
                  · split at h
                    · next heq3 =>
                      split at h
                      · cases h
                        have := readByte_length _ _ _ heq
                        have := readByte_length _ _ _ heq2
                        have := readByte_length _ _ _ heq3
                        omega
                      · exact Option.noConfusion h
                    · exact Option.noConfusion h
                  · exact Option.noConfusion h
                · exact Option.noConfusion h
              · exact Option.noConfusion h
            · exact Option.noConfusion h
          · exact Option.noConfusion h

theorem decodeLoop_congr : ∀ fuel fuel2 : Nat, ∀ s : Str,
    s.length ≤ fuel → s.length ≤ fuel2 → decodeLoop fuel s = decodeLoop fuel2 s := by
  intro fuel
  induction fuel using Nat.strong_induction_on with
  | _ fuel ih =>
    intro fuel2 s hf hf2
    cases s with
    | nil => cases fuel <;> cases fuel2 <;> rfl
    | cons c rest =>
      cases fuel with
      | zero => simp at hf
      | succ fuel =>
        cases fuel2 with
        | zero => simp at hf2
        | succ fuel2 =>
          simp only [decodeLoop]
          by_cases hc : c = '%'
          · rw [if_pos hc, if_pos hc]
            cases hb : readByte (c :: rest) with
            | none => rfl
            | some p =>
              obtain ⟨b, r1⟩ := p
              cases hs : decodeSeq b r1 with
              | none => simp only [hs]
              | some q =>
                obtain ⟨ch, r2⟩ := q
                have h1 := readByte_length _ _ _ hb
                have h2 := decodeSeq_length _ _ _ _ hs
                simp only [List.length_cons] at h1 hf hf2
                simp only [hs]
                rw [ih fuel (by omega) fuel2 r2 (by omega) (by omega)]
          · rw [if_neg hc, if_neg hc]
            simp only [List.length_cons] at hf hf2
            rw [ih fuel (by omega) fuel2 rest (by omega) (by omega)]

theorem dec_nil : decodeURIComponent [] = some [] := rfl

theorem dec_cons_ne (c : Char) (rest : Str) (h : c ≠ '%') :
    decodeURIComponent (c :: rest) = (decodeURIComponent rest).map (fun t => c :: t) := by
  unfold decodeURIComponent
  simp only [List.length_cons, decodeLoop, if_neg h]

theorem dec_percent (rest : Str) (b : Nat) (r1 : Str) (ch : Char) (r2 : Str)
    (hb : readByte ('%' :: rest) = some (b, r1)) (hs : decodeSeq b r1 = some (ch, r2)) :
    decodeURIComponent ('%' :: rest) = (decodeURIComponent r2).map (fun t => ch :: t) := by
  unfold decodeURIComponent
  simp only [List.length_cons, decodeLoop, if_pos rfl, if_true, hb, hs]
  have h1 := readByte_length _ _ _ hb
  have h2 := decodeSeq_length _ _ _ _ hs
  simp only [List.length_cons] at h1
  rw [decodeLoop_congr rest.length r2.length r2 (by omega) (by omega)]

theorem dec_percent_bad (rest : Str) (hb : readByte ('%' :: rest) = none) :
    decodeURIComponent ('%' :: rest) = none := by
  unfold decodeURIComponent
  simp only [List.length_cons, decodeLoop, if_pos rfl, if_true, hb]

theorem dec_percent_badseq (rest : Str) (b : Nat) (r1 : Str)
    (hb : readByte ('%' :: rest) = some (b, r1)) (hs : decodeSeq b r1 = none) :
    decodeURIComponent ('%' :: rest) = none := by
  unfold decodeURIComponent
  simp only [List.length_cons, decodeLoop, if_pos rfl, if_true, hb, hs]

theorem readByte_shape (s : Str) (b : Nat) (r : Str) (h : readByte s = some (b, r)) :
    ∃ h1 h2, s = '%' :: h1 :: h2 :: r := by
  unfold readByte at h
  split at h
  · next h1 h2 r0 =>
    split at h
    · cases h; exact ⟨h1, h2, rfl⟩
    · exact Option.noConfusion h
  · exact Option.noConfusion h

theorem dec_step (s : Str) (b : Nat) (r1 : Str) (ch : Char) (r2 : Str)
    (hb : readByte s = some (b, r1)) (hs : decodeSeq b r1 = some (ch, r2)) :
    decodeURIComponent s = (decodeURIComponent r2).map (fun t => ch :: t) := by
  obtain ⟨h1, h2, rfl⟩ := readByte_shape s b r1 hb
  exact dec_percent _ b r1 ch r2 hb hs

/-! ### Encoding lemmas -/

theorem char_valid (c : Char) :
    c.toNat < 0xD800 ∨ (0xDFFF < c.toNat ∧ c.toNat < 0x110000) := c.valid

theorem hexVal_hexDigit (m : Nat) (h : m < 16) : hexVal (hexDigit m) = some m := by
  interval_cases m <;> decide

theorem hexPair_encode (b : Nat) (h : b < 256) :
    hexPair (hexDigit (b / 16)) (hexDigit (b % 16)) = some b := by
  unfold hexPair
  rw [hexVal_hexDigit _ (by omega), hexVal_hexDigit _ (by omega)]
  show some (16 * (b / 16) + b % 16) = some b
  congr 1
  omega

theorem readByte_encoded (b : Nat) (rest : Str) (h : b < 256) :
    readByte (percentByte b ++ rest) = some (b, rest) := by
  simp only [percentByte, List.cons_append, List.nil_append]
  simp only [readByte, hexPair_encode b h]

theorem utf8Bytes_lt (n : Nat) (hv : n < 0x110000) : ∀ b ∈ utf8Bytes n, b < 256 := by
  intro b hb
  unfold utf8Bytes at hb
  split at hb
  · simp only [List.mem_singleton] at hb; omega
  · split at hb
    · simp only [List.mem_cons, List.not_mem_nil, or_false] at hb
      rcases hb with rfl | rfl <;> omega
    · split at hb
      · simp only [List.mem_cons, List.not_mem_nil, or_false] at hb
        rcases hb with rfl | rfl | rfl <;> omega
      · simp only [List.mem_cons, List.not_mem_nil, or_false] at hb
        rcases hb with rfl | rfl | rfl | rfl <;> omega

theorem mem_percentBytes (bs : List Nat) (hbs : ∀ b ∈ bs, b < 256) :
    ∀ x ∈ percentBytes bs, x = '%' ∨ ∃ m, m < 16 ∧ x = hexDigit m := by
  induction bs with
  | nil => intro x hx; simp [percentBytes] at hx
  | cons b bs ih =>
    intro x hx
    have hb : b < 256 := hbs b (by simp)
    simp only [percentBytes, percentByte, List.cons_append, List.nil_append,
      List.mem_cons] at hx
    rcases hx with rfl | rfl | rfl | hx
    · left; rfl
    · right; exact ⟨b / 16, by omega, rfl⟩
    · right; exact ⟨b % 16, by omega, rfl⟩
    · exact ih (fun b2 hb2 => hbs b2 (by simp [hb2])) x hx

theorem hexDigit_safe (m : Nat) (h : m < 16) :
    hexDigit m ≠ '+' ∧ hexDigit m ≠ '&' ∧ hexDigit m ≠ '=' ∧ hexDigit m ≠ '?' ∧
      hexDigit m ≠ '%' := by
  interval_cases m <;> exact (by decide)

theorem unreserved_safe (c : Char) (h : isUnreserved c = true) :
    c ≠ '+' ∧ c ≠ '&' ∧ c ≠ '=' ∧ c ≠ '?' ∧ c ≠ '%' := by
  refine ⟨?_, ?_, ?_, ?_, ?_⟩ <;>
    exact fun hc => absurd h (by rw [hc]; decide)

theorem encodeChar_safe (c : Char) :
    ∀ x ∈ encodeChar c, x ≠ '+' ∧ x ≠ '&' ∧ x ≠ '=' ∧ x ≠ '?' := by
  intro x hx
  unfold encodeChar at hx
  split at hx
  · next h =>
    simp only [List.mem_singleton] at hx
    subst hx
    have hs := unreserved_safe x h
    exact ⟨hs.1, hs.2.1, hs.2.2.1, hs.2.2.2.1⟩
  · have hv : c.toNat < 0x110000 := by rcases char_valid c with h | h <;> omega
    rcases mem_percentBytes _ (utf8Bytes_lt c.toNat hv) x hx with rfl | ⟨m, hm, rfl⟩
    · exact ⟨by decide, by decide, by decide, by decide⟩
    · have hs := hexDigit_safe m hm
      exact ⟨hs.1, hs.2.1, hs.2.2.1, hs.2.2.2.1⟩

theorem encode_safe (s : Str) :
    ∀ x ∈ encode s, x ≠ '+' ∧ x ≠ '&' ∧ x ≠ '=' ∧ x ≠ '?' := by
  induction s with
  | nil => intro x hx; simp [encode] at hx
  | cons c cs ih =>
    intro x hx
    simp only [encode] at hx
    rcases List.mem_append.mp hx with h | h
    · exact encodeChar_safe c x h
    · exact ih x h

theorem map_id_of_mem {α : Type} (l : List α) (f : α → α) (h : ∀ x ∈ l, f x = x) :
    l.map f = l := by
  induction l with
  | nil => rfl
  | cons a l ih =>
    simp only [List.map_cons, h a (by simp), ih (fun x hx => h x (by simp [hx]))]

theorem replacePlus_encode (s : Str) : replacePlus (encode s) = encode s := by
  unfold replacePlus
  exact map_id_of_mem _ _ (fun x hx => if_neg (encode_safe s x hx).1)

/-! ### The decode-encode round trip -/

theorem decode_encodeChar (c : Char) (rest : Str) :
    decodeURIComponent (encodeChar c ++ rest) =
      (decodeURIComponent rest).map (fun t => c :: t) := by
  by_cases hu : isUnreserved c
  · rw [show encodeChar c = [c] from by rw [encodeChar, if_pos hu]]
    exact dec_cons_ne c rest (unreserved_safe c hu).2.2.2.2
  · rw [show encodeChar c = percentBytes (utf8Bytes c.toNat) from by
      rw [encodeChar, if_neg hu]]
    have hval := char_valid c
    have hofn : Char.ofNat c.toNat = c := Char.ofNat_toNat c
    by_cases h1 : c.toNat < 0x80
    · rw [show utf8Bytes c.toNat = [c.toNat] from by rw [utf8Bytes, if_pos h1]]
      have hrb : readByte (percentByte c.toNat ++ rest) = some (c.toNat, rest) :=
        readByte_encoded _ _ (by omega)
      have hseq : decodeSeq c.toNat rest = some (c, rest) := by
        unfold decodeSeq
        rw [if_pos h1, hofn]
      rw [show percentBytes [c.toNat] ++ rest = percentByte c.toNat ++ rest from by
        simp [percentBytes]]
      exact dec_step _ _ _ _ _ hrb hseq
    · by_cases h2 : c.toNat < 0x800
      · rw [show utf8Bytes c.toNat = [0xC0 + c.toNat / 0x40, 0x80 + c.toNat % 0x40] from by
          rw [utf8Bytes, if_neg h1, if_pos h2]]
        have hrb2 : readByte (percentByte (0x80 + c.toNat % 0x40) ++ rest) =
            some (0x80 + c.toNat % 0x40, rest) := readByte_encoded _ _ (by omega)
        have hrb1 : readByte (percentByte (0xC0 + c.toNat / 0x40) ++
            (percentByte (0x80 + c.toNat % 0x40) ++ rest)) =
            some (0xC0 + c.toNat / 0x40, percentByte (0x80 + c.toNat % 0x40) ++ rest) :=
          readByte_encoded _ _ (by omega)
        have hseq : decodeSeq (0xC0 + c.toNat / 0x40)
            (percentByte (0x80 + c.toNat % 0x40) ++ rest) = some (c, rest) := by
          unfold decodeSeq
          rw [if_neg (by omega), if_neg (by omega), if_pos (by omega)]
          simp only [hrb2]
          rw [if_pos ⟨by omega, by omega⟩]
          rw [show (0xC0 + c.toNat / 0x40 - 0xC0) * 0x40 + (0x80 + c.toNat % 0x40 - 0x80) =
            c.toNat from by omega, hofn]
        rw [show percentBytes [0xC0 + c.toNat / 0x40, 0x80 + c.toNat % 0x40] ++ rest =
            percentByte (0xC0 + c.toNat / 0x40) ++
              (percentByte (0x80 + c.toNat % 0x40) ++ rest) from by
          simp [percentBytes, List.append_assoc]]
        exact dec_step _ _ _ _ _ hrb1 hseq
      · by_cases h3 : c.toNat < 0x10000
        · rw [show utf8Bytes c.toNat =
              [0xE0 + c.toNat / 0x1000, 0x80 + c.toNat / 0x40 % 0x40,
                0x80 + c.toNat % 0x40] from by
            rw [utf8Bytes, if_neg h1, if_neg h2, if_pos h3]]
          have hrb3 : readByte (percentByte (0x80 + c.toNat % 0x40) ++ rest) =
              some (0x80 + c.toNat % 0x40, rest) := readByte_encoded _ _ (by omega)
          have hrb2 : readByte (percentByte (0x80 + c.toNat / 0x40 % 0x40) ++
              (percentByte (0x80 + c.toNat % 0x40) ++ rest)) =
              some (0x80 + c.toNat / 0x40 % 0x40,
                percentByte (0x80 + c.toNat % 0x40) ++ rest) :=
            readByte_encoded _ _ (by omega)
          have hrb1 : readByte (percentByte (0xE0 + c.toNat / 0x1000) ++
              (percentByte (0x80 + c.toNat / 0x40 % 0x40) ++
                (percentByte (0x80 + c.toNat % 0x40) ++ rest))) =
              some (0xE0 + c.toNat / 0x1000,
                percentByte (0x80 + c.toNat / 0x40 % 0x40) ++
                  (percentByte (0x80 + c.toNat % 0x40) ++ rest)) :=
            readByte_encoded _ _ (by omega)
          have hguard : cont3lo (0xE0 + c.toNat / 0x1000) ≤ 0x80 + c.toNat / 0x40 % 0x40 ∧
              0x80 + c.toNat / 0x40 % 0x40 < cont3hi (0xE0 + c.toNat / 0x1000) := by
            unfold cont3lo cont3hi
            rcases hval with hval | hval
            · exact ⟨by split <;> omega, by split <;> omega⟩
            · exact ⟨by split <;> omega, by split <;> omega⟩
          have hseq : decodeSeq (0xE0 + c.toNat / 0x1000)
              (percentByte (0x80 + c.toNat / 0x40 % 0x40) ++
                (percentByte (0x80 + c.toNat % 0x40) ++ rest)) = some (c, rest) := by
            unfold decodeSeq
            rw [if_neg (by omega), if_neg (by omega), if_neg (by omega), if_pos (by omega)]
            simp only [hrb2]
            rw [if_pos hguard]
            simp only [hrb3]
            rw [if_pos ⟨by omega, by omega⟩]
            rw [show (0xE0 + c.toNat / 0x1000 - 0xE0) * 0x1000 +
              (0x80 + c.toNat / 0x40 % 0x40 - 0x80) * 0x40 +
              (0x80 + c.toNat % 0x40 - 0x80) = c.toNat from by omega, hofn]
          rw [show percentBytes [0xE0 + c.toNat / 0x1000, 0x80 + c.toNat / 0x40 % 0x40,
              0x80 + c.toNat % 0x40] ++ rest =
              percentByte (0xE0 + c.toNat / 0x1000) ++
                (percentByte (0x80 + c.toNat / 0x40 % 0x40) ++
                  (percentByte (0x80 + c.toNat % 0x40) ++ rest)) from by
            simp [percentBytes, List.append_assoc]]
          exact dec_step _ _ _ _ _ hrb1 hseq
        · rw [show utf8Bytes c.toNat =
              [0xF0 + c.toNat / 0x40000, 0x80 + c.toNat / 0x1000 % 0x40,
                0x80 + c.toNat / 0x40 % 0x40, 0x80 + c.toNat % 0x40] from by
            rw [utf8Bytes, if_neg h1, if_neg h2, if_neg h3]]
          have hv17 : c.toNat < 0x110000 := by omega
          have hrb4 : readByte (percentByte (0x80 + c.toNat % 0x40) ++ rest) =
              some (0x80 + c.toNat % 0x40, rest) := readByte_encoded _ _ (by omega)
          have hrb3 : readByte (percentByte (0x80 + c.toNat / 0x40 % 0x40) ++
              (percentByte (0x80 + c.toNat % 0x40) ++ rest)) =
              some (0x80 + c.toNat / 0x40 % 0x40,
                percentByte (0x80 + c.toNat % 0x40) ++ rest) :=
            readByte_encoded _ _ (by omega)
          have hrb2 : readByte (percentByte (0x80 + c.toNat / 0x1000 % 0x40) ++
              (percentByte (0x80 + c.toNat / 0x40 % 0x40) ++
                (percentByte (0x80 + c.toNat % 0x40) ++ rest))) =
              some (0x80 + c.toNat / 0x1000 % 0x40,
                percentByte (0x80 + c.toNat / 0x40 % 0x40) ++
                  (percentByte (0x80 + c.toNat % 0x40) ++ rest)) :=
            readByte_encoded _ _ (by omega)
          have hrb1 : readByte (percentByte (0xF0 + c.toNat / 0x40000) ++
              (percentByte (0x80 + c.toNat / 0x1000 % 0x40) ++
                (percentByte (0x80 + c.toNat / 0x40 % 0x40) ++
                  (percentByte (0x80 + c.toNat % 0x40) ++ rest)))) =
              some (0xF0 + c.toNat / 0x40000,
                percentByte (0x80 + c.toNat / 0x1000 % 0x40) ++
                  (percentByte (0x80 + c.toNat / 0x40 % 0x40) ++
                    (percentByte (0x80 + c.toNat % 0x40) ++ rest))) :=
            readByte_encoded _ _ (by omega)
          have hguard : cont4lo (0xF0 + c.toNat / 0x40000) ≤
              0x80 + c.toNat / 0x1000 % 0x40 ∧
              0x80 + c.toNat / 0x1000 % 0x40 < cont4hi (0xF0 + c.toNat / 0x40000) := by
            unfold cont4lo cont4hi
            exact ⟨by split <;> omega, by split <;> omega⟩
          have hseq : decodeSeq (0xF0 + c.toNat / 0x40000)
              (percentByte (0x80 + c.toNat / 0x1000 % 0x40) ++
                (percentByte (0x80 + c.toNat / 0x40 % 0x40) ++
                  (percentByte (0x80 + c.toNat % 0x40) ++ rest))) = some (c, rest) := by
            unfold decodeSeq
            rw [if_neg (by omega), if_neg (by omega), if_neg (by omega),
              if_neg (by omega), if_pos (by omega)]
            simp only [hrb2]
            rw [if_pos hguard]
            simp only [hrb3]
            rw [if_pos ⟨by omega, by omega⟩]
            simp only [hrb4]
            rw [if_pos ⟨by omega, by omega⟩]
            rw [show (0xF0 + c.toNat / 0x40000 - 0xF0) * 0x40000 +
              (0x80 + c.toNat / 0x1000 % 0x40 - 0x80) * 0x1000 +
              (0x80 + c.toNat / 0x40 % 0x40 - 0x80) * 0x40 +
              (0x80 + c.toNat % 0x40 - 0x80) = c.toNat from by omega, hofn]
          rw [show percentBytes [0xF0 + c.toNat / 0x40000, 0x80 + c.toNat / 0x1000 % 0x40,
              0x80 + c.toNat / 0x40 % 0x40, 0x80 + c.toNat % 0x40] ++ rest =
              percentByte (0xF0 + c.toNat / 0x40000) ++
                (percentByte (0x80 + c.toNat / 0x1000 % 0x40) ++
                  (percentByte (0x80 + c.toNat / 0x40 % 0x40) ++
                    (percentByte (0x80 + c.toNat % 0x40) ++ rest))) from by
            simp [percentBytes, List.append_assoc]]
          exact dec_step _ _ _ _ _ hrb1 hseq

theorem decURI_encode (s : Str) : decodeURIComponent (encode s) = some s := by
  induction s with
  | nil => rfl
  | cons c cs ih =>
    show decodeURIComponent (encodeChar c ++ encode cs) = _
    rw [decode_encodeChar c (encode cs), ih]
    rfl

theorem decode_encode (s : Str) : decode (encode s) = some s := by
  unfold decode
  rw [replacePlus_encode, decURI_encode]

/-! ### Splitting and joining lemmas -/

theorem splitAmp_ne_nil (s : Str) : splitAmp s ≠ [] := by
  cases s with
  | nil => simp [splitAmp]
  | cons c rest =>
    simp only [splitAmp]
    split
    · simp
    · split <;> simp

theorem splitAmp_no_amp (s : Str) (h : '&' ∉ s) : splitAmp s = [s] := by
  induction s with
  | nil => rfl
  | cons c rest ih =>
    simp only [List.mem_cons, not_or] at h
    simp only [splitAmp, if_neg (Ne.symm h.1), ih h.2]

theorem splitAmp_append_amp (s t : Str) (h : '&' ∉ s) :
    splitAmp (s ++ '&' :: t) = s :: splitAmp t := by
  induction s with
  | nil => simp [splitAmp]
  | cons c cs ih =>
    simp only [List.mem_cons, not_or] at h
    rw [List.cons_append]
    simp only [splitAmp, if_neg (Ne.symm h.1), ih h.2]

theorem splitAmp_join (segs : List Str) (hne : segs ≠ [])
    (h : ∀ seg ∈ segs, '&' ∉ seg) : splitAmp (joinAmp segs) = segs := by
  induction segs with
  | nil => exact absurd rfl hne
  | cons s segs ih =>
    cases segs with
    | nil => exact splitAmp_no_amp s (h s (by simp))
    | cons t segs2 =>
      have hs : '&' ∉ s := h s (by simp)
      have hjoin : splitAmp (joinAmp (t :: segs2)) = t :: segs2 :=
        ih (by simp) (fun seg hseg => h seg (List.mem_cons_of_mem _ hseg))
      show splitAmp (s ++ '&' :: joinAmp (t :: segs2)) = s :: t :: segs2
      rw [splitAmp_append_amp s _ hs, hjoin]

theorem takeNoEq_no_eq (s : Str) (h : '=' ∉ s) : takeNoEq s = s := by
  induction s with
  | nil => rfl
  | cons c rest ih =>
    simp only [List.mem_cons, not_or] at h
    simp only [takeNoEq, if_neg (Ne.symm h.1)]
    rw [ih h.2]

theorem afterFirstEq_no_eq (s : Str) (h : '=' ∉ s) : afterFirstEq s = none := by
  induction s with
  | nil => rfl
  | cons c rest ih =>
    simp only [List.mem_cons, not_or] at h
    simp only [afterFirstEq, if_neg (Ne.symm h.1)]
    exact ih h.2

theorem takeNoEq_append (k v : Str) (hk : '=' ∉ k) :
    takeNoEq (k ++ '=' :: v) = k := by
  induction k with
  | nil => simp [takeNoEq]
  | cons c cs ih =>
    simp only [List.mem_cons, not_or] at hk
    rw [List.cons_append]
    simp only [takeNoEq, if_neg (Ne.symm hk.1)]
    rw [ih hk.2]

theorem afterFirstEq_append (k v : Str) (hk : '=' ∉ k) (hv : '=' ∉ v) :
    afterFirstEq (k ++ '=' :: v) = some v := by
  induction k with
  | nil => simp [afterFirstEq, takeNoEq_no_eq v hv]
  | cons c cs ih =>
    simp only [List.mem_cons, not_or] at hk
    rw [List.cons_append]
    simp only [afterFirstEq, if_neg (Ne.symm hk.1)]
    exact ih hk.2

theorem stripQ_cons_ne (c : Char) (r : Str) (h : c ≠ '?') : stripQ (c :: r) = c :: r := by
  unfold stripQ
  split
  · next heq => cases heq; exact absurd rfl h
  · rfl

theorem stripQ_eq_self (s : Str) (h : s.head? ≠ some '?') : stripQ s = s := by
  cases s with
  | nil => rfl
  | cons c r =>
    refine stripQ_cons_ne c r (fun hc => h ?_)
    rw [hc]; rfl

/-! ### Parse lemmas -/

theorem parseSegs_isSome (segs : List Str) : ∀ m : Params,
    (parseSegs m segs).isSome = segs.all segOk := by
  induction segs with
  | nil => intro m; rfl
  | cons seg rest ih =>
    intro m
    simp only [parseSegs, List.all_cons]
    cases hae : afterFirstEq seg with
    | none => simp [segOk, hae, ih]
    | some rv =>
      cases hk : decode (takeNoEq seg) with
      | none => simp [segOk, hae, hk]
      | some ck =>
        cases hv : decode rv with
        | none => simp [segOk, hae, hk, hv]
        | some cv => simp [segOk, hae, hk, hv, ih]

theorem parse_isSome (q : Str) : (parse q).isSome = queryOk q := by
  unfold parse queryOk
  by_cases h : stripQ q = []
  · simp [h]
  · simp only [if_neg h, parseSegs_isSome]
    simp [h]

theorem parseSegs_serialized (pairs : List (Str × Str)) : ∀ m : Params,
    parseSegs m (pairs.map serializeP) = some (foldAdd m pairs) := by
  induction pairs with
  | nil => intro m; rfl
  | cons p rest ih =>
    intro m
    obtain ⟨k, v⟩ := p
    have hk : '=' ∉ encode k := fun hx => absurd rfl (encode_safe k '=' hx).2.2.1
    have hv : '=' ∉ encode v := fun hx => absurd rfl (encode_safe v '=' hx).2.2.1
    simp only [List.map_cons, parseSegs, serializeP]
    rw [afterFirstEq_append _ _ hk hv, takeNoEq_append _ _ hk]
    simp only [decode_encode k, decode_encode v]
    exact ih (addValue m k v)

/-! ### Map lemmas -/

theorem mapGet_eq_none (m : Params) (k : Str) :
    mapGet m k = none ↔ k ∉ m.map Prod.fst := by
  induction m with
  | nil => simp [mapGet]
  | cons p rest ih =>
    obtain ⟨k0, w⟩ := p
    simp only [mapGet, List.map_cons, List.mem_cons, not_or]
    by_cases h : k0 = k
    · subst h
      rw [if_pos rfl]
      exact ⟨fun h' => Option.noConfusion h', fun h' => absurd rfl h'.1⟩
    · rw [if_neg h]
      simp only [ih]
      exact ⟨fun hr => ⟨Ne.symm h, hr⟩, fun hr => hr.2⟩

theorem mapGet_isSome (m : Params) (k : Str) :
    (mapGet m k).isSome = true ↔ k ∈ m.map Prod.fst := by
  rw [Option.isSome_iff_ne_none, ne_eq, mapGet_eq_none]
  exact not_not

theorem mapSet_absent (m : Params) (k : Str) (v : Val) (h : k ∉ m.map Prod.fst) :
    mapSet m k v = m ++ [(k, v)] := by
  induction m with
  | nil => rfl
  | cons p rest ih =>
    obtain ⟨k0, w⟩ := p
    simp only [List.map_cons, List.mem_cons, not_or] at h
    simp only [mapSet, if_neg (Ne.symm h.1), List.cons_append, ih h.2]

theorem mapGet_append_left (pre tail : Params) (k : Str) (h : k ∉ pre.map Prod.fst) :
    mapGet (pre ++ tail) k = mapGet tail k := by
  induction pre with
  | nil => rfl
  | cons p rest ih =>
    obtain ⟨k0, w⟩ := p
    simp only [List.map_cons, List.mem_cons, not_or] at h
    simp only [List.cons_append, mapGet, if_neg (Ne.symm h.1)]
    exact ih h.2

theorem mapSet_append_found (pre tail : Params) (k : Str) (pv w : Val)
    (h : k ∉ pre.map Prod.fst) :
    mapSet (pre ++ (k, pv) :: tail) k w = pre ++ (k, w) :: tail := by
  induction pre with
  | nil => simp [mapSet]
  | cons p rest ih =>
    obtain ⟨k0, u⟩ := p
    simp only [List.map_cons, List.mem_cons, not_or] at h
    simp only [List.cons_append, mapSet, if_neg (Ne.symm h.1)]
    exact congrArg (List.cons (k0, u)) (ih h.2)

theorem addValue_absent (m : Params) (k v : Str) (h : k ∉ m.map Prod.fst) :
    addValue m k v = m ++ [(k, .one v)] := by
  unfold addValue
  rw [(mapGet_eq_none m k).mpr h, mapSet_absent m k _ h]

theorem addValue_last (pre : Params) (k : Str) (pv : Val) (v : Str)
    (h : k ∉ pre.map Prod.fst) :
    addValue (pre ++ [(k, pv)]) k v = pre ++ [(k, push pv v)] := by
  unfold addValue
  rw [mapGet_append_left pre _ k h]
  simp only [mapGet]
  exact mapSet_append_found pre [] k pv _ h

theorem foldl_push_many (vs l : List Str) :
    vs.foldl push (Val.many l) = Val.many (l ++ vs) := by
  induction vs generalizing l with
  | nil => simp
  | cons v vs ih => simp only [List.foldl_cons, push, ih]; simp

theorem foldl_push_one (v : Str) (vs : List Str) (h : vs ≠ []) :
    vs.foldl push (Val.one v) = Val.many (v :: vs) := by
  cases vs with
  | nil => exact absurd rfl h
  | cons w ws => simp only [List.foldl_cons, push, foldl_push_many]; rfl

theorem foldAdd_group (pre : Params) (k : Str) (pv : Val) (vs : List Str)
    (h : k ∉ pre.map Prod.fst) :
    foldAdd (pre ++ [(k, pv)]) (vs.map (fun v => (k, v))) =
      pre ++ [(k, vs.foldl push pv)] := by
  induction vs generalizing pv with
  | nil => rfl
  | cons v vs ih =>
    show foldAdd (addValue (pre ++ [(k, pv)]) k v) (vs.map (fun v => (k, v))) = _
    rw [addValue_last pre k pv v h, ih (push pv v)]
    rfl

theorem foldAdd_entries (m : Params) : ∀ pre : Params,
    (pre.map Prod.fst ++ m.map Prod.fst).Nodup → (∀ p ∈ m, valOk p.2 = true) →
    foldAdd pre (entries m) = pre ++ m := by
  induction m with
  | nil => intro pre _ _; simp [foldAdd, entries]
  | cons p rest ih =>
    intro pre hnd hok
    obtain ⟨k, pv⟩ := p
    have hkpre : k ∉ pre.map Prod.fst := by
      intro hmem
      rw [List.map_cons, List.nodup_append] at hnd
      exact hnd.2.2 hmem (List.mem_cons_self _ _)
    have hGroup : foldAdd pre ((vals pv).map (fun v => (k, v))) = pre ++ [(k, pv)] := by
      cases pv with
      | one s =>
        show foldAdd (addValue pre k s) [] = _
        rw [addValue_absent pre k s hkpre]; rfl
      | many l =>
        have hlen : 2 ≤ l.length := by
          have := hok (k, .many l) (by simp)
          simpa [valOk] using this
        cases l with
        | nil => simp at hlen
        | cons v vrest =>
          show foldAdd (addValue pre k v) (vrest.map (fun v => (k, v))) = _
          rw [addValue_absent pre k v hkpre, foldAdd_group pre k _ vrest hkpre]
          rw [foldl_push_one v vrest (by rintro rfl; simp at hlen)]
    have hsplit : foldAdd pre (entries ((k, pv) :: rest)) =
        foldAdd (foldAdd pre ((vals pv).map (fun v => (k, v)))) (entries rest) := by
      simp only [entries, foldAdd, List.foldl_append]
    rw [hsplit, hGroup,
      ih (pre ++ [(k, pv)])
        (by simpa [List.map_append, List.append_assoc] using hnd)
        (fun q hq => hok q (List.mem_cons_of_mem _ hq))]
    simp

/-! ### Serialization round trip -/

theorem serializeP_ne_nil (p : Str × Str) : serializeP p ≠ [] := by
  unfold serializeP
  cases encode p.1 <;> simp

theorem serializeP_no_amp (p : Str × Str) : '&' ∉ serializeP p := by
  intro hx
  unfold serializeP at hx
  rcases List.mem_append.mp hx with h | h
  · exact absurd rfl (encode_safe p.1 '&' h).2.1
  · rcases List.mem_cons.mp h with h | h
    · exact absurd h (by decide)
    · exact absurd rfl (encode_safe p.2 '&' h).2.1

theorem serializeP_head (p : Str × Str) : ∀ x, (serializeP p).head? = some x → x ≠ '?' := by
  intro x hx
  unfold serializeP at hx
  cases hk : encode p.1 with
  | nil =>
    rw [hk] at hx
    simp only [List.nil_append, List.head?_cons, Option.some.injEq] at hx
    subst hx
    decide
  | cons c cs =>
    rw [hk] at hx
    simp only [List.cons_append, List.head?_cons, Option.some.injEq] at hx
    subst hx
    exact (encode_safe p.1 c (by rw [hk]; exact List.mem_cons_self c cs)).2.2.2

theorem entries_ne_nil (m : Params) (hm : m ≠ []) (hok : ∀ p ∈ m, valOk p.2 = true) :
    entries m ≠ [] := by
  cases m with
  | nil => exact absurd rfl hm
  | cons p rest =>
    obtain ⟨k, pv⟩ := p
    cases pv with
    | one s => simp [entries, vals]
    | many l =>
      have hl := hok (k, .many l) (by simp)
      simp only [valOk, decide_eq_true_eq] at hl
      cases l with
      | nil => simp at hl
      | cons v vs => simp [entries, vals]

theorem toString_head_ne (m : Params) (hne : entries m ≠ []) :
    (toString m).head? ≠ some '?' := by
  unfold toString
  intro hx
  cases he : entries m with
  | nil => exact absurd he hne
  | cons e es =>
    rw [he] at hx
    cases hes : es.map serializeP with
    | nil =>
      rw [List.map_cons, hes] at hx
      exact serializeP_head e '?' hx rfl
    | cons t ts =>
      rw [List.map_cons, hes,
        show joinAmp (serializeP e :: t :: ts) =
          serializeP e ++ '&' :: joinAmp (t :: ts) from rfl,
        List.head?_append_of_ne_nil _ (serializeP_ne_nil e)] at hx
      exact serializeP_head e '?' hx rfl

theorem toString_ne_nil (m : Params) (hne : entries m ≠ []) : toString m ≠ [] := by
  unfold toString
  cases he : entries m with
  | nil => exact absurd he hne
  | cons e es =>
    rw [List.map_cons]
    cases hes : es.map serializeP with
    | nil => exact serializeP_ne_nil e
    | cons t ts =>
      show serializeP e ++ '&' :: joinAmp (t :: ts) ≠ []
      simp [serializeP_ne_nil e]

theorem parse_toString (m : Params) (h : WF m) : parse (toString m) = some m := by
  by_cases hm : m = []
  · subst hm; rfl
  · have hent : entries m ≠ [] := entries_ne_nil m hm h.2
    have hsegsne : (entries m).map serializeP ≠ [] := by
      cases he : entries m with
      | nil => exact absurd he hent
      | cons e es => simp
    have hnoamp : ∀ seg ∈ (entries m).map serializeP, '&' ∉ seg := by
      intro seg hseg
      rcases List.mem_map.mp hseg with ⟨p, _, rfl⟩
      exact serializeP_no_amp p
    have hstrip : stripQ (toString m) = toString m :=
      stripQ_eq_self _ (toString_head_ne m hent)
    unfold parse
    rw [hstrip, if_neg (toString_ne_nil m hent)]
    rw [show toString m = joinAmp ((entries m).map serializeP) from rfl,
      splitAmp_join _ hsegsne hnoamp, parseSegs_serialized]
    rw [foldAdd_entries m [] (by simpa using h.1) h.2]
    rfl

/-! ### Sort lemmas -/

theorem mapGet_rebuild (m : Params) (key : Str) : ∀ ks : List Str,
    mapGet (ks.filterMap (fun k => (mapGet m k).map (fun v => (k, v)))) key =
      if key ∈ ks then mapGet m key else none := by
  intro ks
  induction ks with
  | nil => simp [mapGet]
  | cons k ks ih =>
    by_cases hk : k = key
    · subst hk
      cases hv : mapGet m k with
      | none =>
        simp only [List.filterMap_cons, hv, Option.map_none']
        rw [ih]
        simp [hv]
      | some pv =>
        simp only [List.filterMap_cons, hv, Option.map_some']
        simp [mapGet, hv]
    · cases hv : mapGet m k with
      | none =>
        simp only [List.filterMap_cons, hv, Option.map_none']
        rw [ih]
        simp only [List.mem_cons, or_iff_right (fun he : key = k => hk he.symm)]
      | some pv =>
        simp only [List.filterMap_cons, hv, Option.map_some']
        simp only [mapGet, if_neg hk]
        rw [ih]
        simp only [List.mem_cons, or_iff_right (fun he : key = k => hk he.symm)]

theorem filterMap_congr_mem {α β : Type} (l : List α) (f g : α → Option β)
    (h : ∀ x ∈ l, f x = g x) : l.filterMap f = l.filterMap g := by
  induction l with
  | nil => rfl
  | cons a l ih =>
    simp only [List.filterMap_cons, h a (by simp),
      ih (fun x hx => h x (List.mem_cons_of_mem a hx))]

theorem rebuild_self (m : Params) (hnd : (m.map Prod.fst).Nodup) :
    (m.map Prod.fst).filterMap (fun k => (mapGet m k).map (fun v => (k, v))) = m := by
  induction m with
  | nil => rfl
  | cons p rest ih =>
    obtain ⟨k0, pv⟩ := p
    simp only [List.map_cons, List.nodup_cons] at hnd
    simp only [List.map_cons, List.filterMap_cons]
    rw [show mapGet ((k0, pv) :: rest) k0 = some pv from by simp [mapGet]]
    simp only [Option.map_some']
    congr 1
    rw [filterMap_congr_mem _ _ (fun k => (mapGet rest k).map (fun v => (k, v)))
      (fun k hk => by
        rw [show mapGet ((k0, pv) :: rest) k = mapGet rest k from by
          have : k0 ≠ k := fun he => hnd.1 (he ▸ hk)
          simp [mapGet, this]])]
    exact ih hnd.2

theorem sort_perm (m : Params) (hnd : (m.map Prod.fst).Nodup) : List.Perm (sort m) m := by
  unfold sort
  exact ((List.perm_insertionSort jsLe (m.map Prod.fst)).filterMap _).trans
    (by rw [rebuild_self m hnd])

theorem entries_perm (m1 m2 : Params) (h : List.Perm m1 m2) :
    List.Perm (entries m1) (entries m2) := by
  induction h with
  | nil => exact List.Perm.refl _
  | cons p _h ih => exact ih.append_left ((vals p.2).map (fun v => (p.1, v)))
  | swap p q l =>
    show List.Perm (_ ++ (_ ++ _)) (_ ++ (_ ++ _))
    rw [← List.append_assoc, ← List.append_assoc]
    exact List.Perm.append_right _ List.perm_append_comm
  | trans _h1 _h2 ih1 ih2 => exact ih1.trans ih2

theorem rebuild_keys_sublist (m : Params) : ∀ ks : List Str,
    List.Sublist ((ks.filterMap (fun k => (mapGet m k).map (fun v => (k, v)))).map Prod.fst)
      ks := by
  intro ks
  induction ks with
  | nil => simp
  | cons k ks ih =>
    simp only [List.filterMap_cons]
    cases mapGet m k with
    | none => exact ih.cons k
    | some pv => simpa using ih.cons₂ k

theorem sort_sorted (m : Params) : List.Sorted jsLe ((sort m).map Prod.fst) := by
  unfold sort
  exact List.Pairwise.sublist (rebuild_keys_sublist m _)
    (List.sorted_insertionSort jsLe (m.map Prod.fst))

theorem sort_mapGet (m : Params) (key : Str) : mapGet (sort m) key = mapGet m key := by
  unfold sort
  rw [mapGet_rebuild]
  by_cases hk : key ∈ m.map Prod.fst
  · rw [if_pos (((List.perm_insertionSort jsLe (m.map Prod.fst)).mem_iff).mpr hk)]
  · rw [if_neg (fun hmem =>
      hk (((List.perm_insertionSort jsLe (m.map Prod.fst)).mem_iff).mp hmem))]
    exact ((mapGet_eq_none m key).mpr hk).symm

/-! ### Set and append lemmas -/

theorem mapSet_map_fst (m : Params) (k : Str) (v : Val) :
    (mapSet m k v).map Prod.fst =
      if k ∈ m.map Prod.fst then m.map Prod.fst else m.map Prod.fst ++ [k] := by
  induction m with
  | nil => simp [mapSet]
  | cons p rest ih =>
    obtain ⟨k0, w⟩ := p
    by_cases h : k0 = k
    · subst h
      simp only [mapSet, if_pos rfl, if_true, List.map_cons]
      rw [if_pos (List.mem_cons_self _ _)]
    · simp only [mapSet, if_neg h, List.map_cons, ih]
      simp only [List.mem_cons, or_iff_right (fun he : k = k0 => h he.symm)]
      by_cases hk : k ∈ rest.map Prod.fst
      · rw [if_pos hk, if_pos hk]
      · rw [if_neg hk, if_neg hk, List.cons_append]

theorem mapGet_mapSet_self (m : Params) (k : Str) (v : Val) :
    mapGet (mapSet m k v) k = some v := by
  induction m with
  | nil =>
    show mapGet [(k, v)] k = some v
    simp only [mapGet, if_pos rfl, if_true]
  | cons p rest ih =>
    obtain ⟨k0, w⟩ := p
    by_cases h : k0 = k
    · subst h
      simp only [mapSet, if_pos rfl, mapGet, if_true]
    · simp only [mapSet, if_neg h, mapGet, if_neg h]
      exact ih

theorem mapGet_mapSet_ne (m : Params) (k : Str) (v : Val) (k2 : Str) (h : k2 ≠ k) :
    mapGet (mapSet m k v) k2 = mapGet m k2 := by
  induction m with
  | nil =>
    show mapGet [(k, v)] k2 = none
    simp only [mapGet, if_neg (fun he : k = k2 => h he.symm)]
  | cons p rest ih =>
    obtain ⟨k0, w⟩ := p
    by_cases h0 : k0 = k
    · subst h0
      simp only [mapSet, if_pos rfl, mapGet, if_neg (fun he : k0 = k2 => h he.symm)]
    · simp only [mapSet, if_neg h0, mapGet]
      by_cases h2 : k0 = k2
      · simp [h2]
      · simp only [if_neg h2]
        exact ih

theorem getAll_set (m : Params) (k v : Str) (h : v ≠ []) : getAll (set m k v) k = [v] := by
  unfold getAll set
  rw [mapGet_mapSet_self]
  simp [h]

theorem valsAt_append_self (m : Params) (k v : Str) :
    valsAt (append m k v) k = valsAt m k ++ [v] := by
  unfold valsAt append addValue
  cases hg : mapGet m k with
  | none => rw [mapGet_mapSet_self]; simp [vals]
  | some pv =>
    rw [mapGet_mapSet_self]
    cases pv <;> simp [vals, push]

/-! ### The claims -/

/-- C1: the claim states that get returns the first recorded value whenever
the key has at least one value and null exactly when the key is absent, so
that the store parsed from a= answers the empty string for the key a.  The
code violates this: its falsy test (if (!value) return null) also fires on
a present scalar empty-string value, so for the store parsed from a= the
key is present (has answers true) yet get answers null. -/
theorem claim1_get_empty_value :
    parse ("a=".data) = some [("a".data, Val.one "".data)] ∧
    has [("a".data, Val.one "".data)] ("a".data) = true ∧
    get [("a".data, Val.one "".data)] ("a".data) = none := by
  exact ⟨by decide, by decide, by decide⟩

/-- C2: the claim states that a segment with an equals sign is split at the
FIRST equals sign with the raw value being everything after it, so that
a=b=c records the value b=c.  The code violates this: the JavaScript split
with limit 2 truncates, so a=b=c records the value b and drops c. -/
theorem claim2_split_truncates :
    parse ("a=b=c".data) = some [("a".data, Val.one "b".data)] ∧
    Val.one "b".data ≠ Val.one "b=c".data := by
  exact ⟨by decide, by decide⟩

/-- C3: the claim states that getAll returns the empty sequence exactly when
the key is absent, and a one-element sequence holding the empty string for a
key whose single recorded value is the empty string.  The code violates
this: its falsy test also fires on a present scalar empty-string value, so
for the store parsed from a= the key is present yet getAll answers the
empty array. -/
theorem claim3_getAll_empty_value :
    parse ("a=".data) = some [("a".data, Val.one "".data)] ∧
    has [("a".data, Val.one "".data)] ("a".data) = true ∧
    getAll [("a".data, Val.one "".data)] ("a".data) = [] := by
  exact ⟨by decide, by decide, by decide⟩

/-- C4: construction fails exactly when some decoded position of the input
holds a malformed percent escape, and the failure is atomic: the optional
result of parse is none, no partial store.  In particular a trailing
percent sign and a percent sign followed by non-hex characters fail, while
well-formed escapes (such as a two-byte UTF-8 sequence) succeed. -/
theorem claim4_construction_atomic (q : Str) :
    ((parse q).isSome = true ↔ queryOk q = true) ∧
    parse ("a=%".data) = none ∧
    parse ("a=%zz".data) = none ∧
    parse ("a=%C3%A9".data) = some [("a".data, Val.one [Char.ofNat 0xE9])] := by
  refine ⟨?_, by decide, by decide, by decide⟩
  rw [parse_isSome q]

/-- C5 counterexample: the claim states that sort leaves the keys in
ascending lexicographic code-point order.  The code sorts with the default
JavaScript string comparison, which compares UTF-16 code units, and the two
orders disagree on supplementary-plane keys: for the reachable store built
by two set calls with the keys U+FFFF and U+10000, sort puts the key
U+10000 first although its code point is the larger one, so the sorted
keys are not in ascending code-point order. -/
theorem claim5_sort_not_codepoint :
    set (set [] [Char.ofNat 0xFFFF] ("1".data)) [Char.ofNat 0x10000] ("2".data) =
      [([Char.ofNat 0xFFFF], Val.one "1".data), ([Char.ofNat 0x10000], Val.one "2".data)] ∧
    sort [([Char.ofNat 0xFFFF], Val.one "1".data), ([Char.ofNat 0x10000], Val.one "2".data)] =
      [([Char.ofNat 0x10000], Val.one "2".data), ([Char.ofNat 0xFFFF], Val.one "1".data)] ∧
    codePointLe [Char.ofNat 0x10000] [Char.ofNat 0xFFFF] = false := by
  exact ⟨by decide, by decide, by decide⟩

/-- C5 amended: for every store with distinct keys (the Map invariant),
after sort the keys are in ascending lexicographic UTF-16 code-unit order
(the default JavaScript string order, which agrees with code-point order
whenever no key holds a supplementary-plane character), every key keeps its
stored value sequence unchanged (so the relative order of the values of a
key is preserved), and the entry list is a permutation of the old one (the
multiset of entries is unchanged); on the all-ASCII example of the spec the
result is exactly the key-sorted store. -/
theorem claim5_sort_code_units (m : Params) (hnd : (m.map Prod.fst).Nodup) :
    List.Sorted jsLe ((sort m).map Prod.fst) ∧
    (∀ k, mapGet (sort m) k = mapGet m k) ∧
    List.Perm (entries (sort m)) (entries m) ∧
    sort [("b".data, Val.many ["2".data, "1".data]), ("c".data, Val.one "3".data),
        ("a".data, Val.one "4".data)] =
      [("a".data, Val.one "4".data), ("b".data, Val.many ["2".data, "1".data]),
        ("c".data, Val.one "3".data)] :=
  ⟨sort_sorted m, fun k => sort_mapGet m k, entries_perm _ _ (sort_perm m hnd), by decide⟩

/-- C5 witness: the amended sort theorem applied to a concrete store. -/
theorem claim5_sort_code_units_witness :
    List.Sorted jsLe
      ((sort [("b".data, Val.one "2".data), ("a".data, Val.one "4".data)]).map Prod.fst) ∧
    mapGet (sort [("b".data, Val.one "2".data), ("a".data, Val.one "4".data)]) ("b".data) =
      mapGet [("b".data, Val.one "2".data), ("a".data, Val.one "4".data)] ("b".data) ∧
    List.Perm (entries (sort [("b".data, Val.one "2".data), ("a".data, Val.one "4".data)]))
      (entries [("b".data, Val.one "2".data), ("a".data, Val.one "4".data)]) :=
  ⟨(claim5_sort_code_units _ (by decide)).1,
    (claim5_sort_code_units _ (by decide)).2.1 _,
    (claim5_sort_code_units _ (by decide)).2.2.1⟩

/-- C6: a segment without an equals sign is recorded as the raw key with the
empty value and NO decoding applied, while a segment with an equals sign has
both chunks decoded (plus signs to spaces, then percent-decoding) before
recording: a%20b parses to the raw pair, a%20b= to the decoded one. -/
theorem claim6_bare_key_raw :
    (∀ s : Str, s ≠ [] → s.head? ≠ some '?' → '=' ∉ s → '&' ∉ s →
      parse s = some [(s, Val.one [])]) ∧
    (∀ s k v : Str, s = k ++ '=' :: v → '=' ∉ k → '=' ∉ v → '&' ∉ s →
      s.head? ≠ some '?' → ∀ ck cv, decode k = some ck → decode v = some cv →
      parse s = some [(ck, Val.one cv)]) ∧
    parse ("a%20b".data) = some [("a%20b".data, Val.one "".data)] ∧
    parse ("a%20b=".data) = some [("a b".data, Val.one "".data)] ∧
    parse ("a+b=c+d".data) = some [("a b".data, Val.one "c d".data)] := by
  refine ⟨?_, ?_, by decide, by decide, by decide⟩
  · intro s hne hq heq hamp
    unfold parse
    rw [stripQ_eq_self s hq, if_neg hne, splitAmp_no_amp s hamp]
    show parseSegs [] [s] = _
    simp only [parseSegs, afterFirstEq_no_eq s heq, takeNoEq_no_eq s heq]
    rfl
  · intro s k v hs hk hv hamp hq ck cv hck hcv
    subst hs
    have hne : k ++ '=' :: v ≠ [] := by simp
    unfold parse
    rw [stripQ_eq_self _ hq, if_neg hne, splitAmp_no_amp _ hamp]
    show parseSegs [] [k ++ '=' :: v] = _
    simp only [parseSegs, afterFirstEq_append k v hk hv, takeNoEq_append k v hk, hck, hcv]
    rfl

/-- C6 witness: the two general parts applied to concrete segments. -/
theorem claim6_bare_key_raw_witness :
    parse ("x%2F".data) = some [("x%2F".data, Val.one [])] ∧
    parse ("x%2F=".data) = some [("x/".data, Val.one [])] :=
  ⟨claim6_bare_key_raw.1 ("x%2F".data) (by decide) (by decide) (by decide) (by decide),
    claim6_bare_key_raw.2.1 ("x%2F=".data) ("x%2F".data) [] (by decide) (by decide)
      (by decide) (by decide) (by decide) ("x/".data) [] (by decide) (by decide)⟩

/-- C7: toString serializes exactly the entries, in order, as key=value
parts joined by ampersands, with key and value percent-encoded (a space
becomes the escape %20, never a plus sign, and no encoded output ever holds
a plus sign); and for every well-formed store, parsing the serialization
back yields the very same store, so reserializing gives the same string. -/
theorem claim7_toString_roundtrip (m : Params) (h : WF m) :
    toString m = joinAmp ((entries m).map serializeP) ∧
    parse (toString m) = some m ∧
    (parse (toString m)).map toString = some (toString m) ∧
    encode (" ".data) = "%20".data ∧
    (∀ s : Str, '+' ∉ encode s) := by
  refine ⟨rfl, parse_toString m h, ?_, by decide,
    fun s hx => absurd rfl (encode_safe s '+' hx).1⟩
  rw [parse_toString m h]
  rfl

/-- C7 witness: the round trip on a concrete store with a repeated key, a
space and an empty value. -/
theorem claim7_toString_roundtrip_witness :
    parse (toString [("a".data, Val.many ["1".data, "2".data]),
        ("b c".data, Val.one "".data)]) =
      some [("a".data, Val.many ["1".data, "2".data]), ("b c".data, Val.one "".data)] ∧
    encode (" ".data) = "%20".data :=
  ⟨(claim7_toString_roundtrip _ (by decide)).2.1,
    (claim7_toString_roundtrip [] (by decide)).2.2.2.1⟩

/-- C8: set on a key that is already present replaces its value in place,
keeping the key at its old position in the top-level order and leaving
every other key and its value untouched; a fresh key is appended at the
end of the top-level order. -/
theorem claim8_set_keeps_position (m : Params) (k v : Str) :
    ((set m k v).map Prod.fst =
      if k ∈ m.map Prod.fst then m.map Prod.fst else m.map Prod.fst ++ [k]) ∧
    ∀ k2, k2 ≠ k → mapGet (set m k v) k2 = mapGet m k2 :=
  ⟨mapSet_map_fst m k _, fun k2 h2 => mapGet_mapSet_ne m k _ k2 h2⟩

/-- C8 witness: setting an existing key of a concrete store keeps the key
order and the other key's value. -/
theorem claim8_set_keeps_position_witness :
    ((set [("a".data, Val.one "1".data), ("b".data, Val.one "2".data)]
        ("a".data) ("9".data)).map Prod.fst =
      if "a".data ∈ ([("a".data, Val.one "1".data),
          ("b".data, Val.one "2".data)] : Params).map Prod.fst then
        ([("a".data, Val.one "1".data), ("b".data, Val.one "2".data)] : Params).map Prod.fst
      else ([("a".data, Val.one "1".data),
          ("b".data, Val.one "2".data)] : Params).map Prod.fst ++ ["a".data]) ∧
    mapGet (set [("a".data, Val.one "1".data), ("b".data, Val.one "2".data)]
        ("a".data) ("9".data)) ("b".data) =
      mapGet [("a".data, Val.one "1".data), ("b".data, Val.one "2".data)] ("b".data) :=
  ⟨(claim8_set_keeps_position [("a".data, Val.one "1".data),
      ("b".data, Val.one "2".data)] ("a".data) ("9".data)).1,
    (claim8_set_keeps_position [("a".data, Val.one "1".data),
      ("b".data, Val.one "2".data)] ("a".data) ("9".data)).2 ("b".data) (by decide)⟩

/-- C9 counterexample: the claim states that after set the observable value
sequence getAll returns is the one-element sequence holding the stored
string for EVERY value; for the empty-string value the falsy test of
getAll fires and the empty sequence comes back instead. -/
theorem claim9_set_empty_cex :
    getAll (set [] ("a".data) ("".data)) ("a".data) = [] ∧
    ([] : List Str) ≠ ["".data] := by
  exact ⟨by decide, by decide⟩

/-- C9 amended: set and append store their arguments verbatim with no
decoding or encoding: after set the stored value for the key is exactly the
scalar given, and getAll returns the one-element sequence holding it for
every nonempty value (the empty-string value is stored verbatim too, but
the falsy bug of getAll hides it); append appends the verbatim value at the
end of the stored value sequence; the four characters of the string made of
percent, two, zero, plus are stored literally. -/
theorem claim9_set_append_verbatim (m : Params) (k v : Str) :
    mapGet (set m k v) k = some (Val.one v) ∧
    (v ≠ [] → getAll (set m k v) k = [v]) ∧
    valsAt (append m k v) k = valsAt m k ++ [v] ∧
    getAll (set [] ("a".data) ("%20+".data)) ("a".data) = ["%20+".data] :=
  ⟨mapGet_mapSet_self m k _, fun hv => getAll_set m k v hv,
    valsAt_append_self m k v, by decide⟩

/-- C9 witness: the amended theorem at the literal string of the claim. -/
theorem claim9_set_append_verbatim_witness :
    mapGet (set [] ("a".data) ("%20+".data)) ("a".data) = some (Val.one "%20+".data) ∧
    getAll (set [] ("a".data) ("%20+".data)) ("a".data) = ["%20+".data] :=
  ⟨(claim9_set_append_verbatim [] ("a".data) ("%20+".data)).1,
    (claim9_set_append_verbatim [] ("a".data) ("%20+".data)).2.1 (by decide)⟩

/-- C10: toString always puts an equals sign between key and value, also
for an empty value: the serialization is the join of encoded key, equals
sign, encoded value for every entry, so the store parsed from the bare key
a serializes to a= and serialization after parsing is not the identity even
on inputs free of plus signs and percent escapes. -/
theorem claim10_toString_emits_eq :
    (∀ m : Params, toString m = joinAmp ((entries m).map serializeP)) ∧
    (∀ p : Str × Str, serializeP p = encode p.1 ++ '=' :: encode p.2) ∧
    parse ("a".data) = some [("a".data, Val.one "".data)] ∧
    toString [("a".data, Val.one "".data)] = "a=".data ∧
    "a=".data ≠ "a".data ∧ '+' ∉ "a".data ∧ '%' ∉ "a".data := by
  exact ⟨fun m => rfl, fun p => rfl, by decide, by decide, by decide, by decide, by decide⟩

end SearchParams
